import Mathlib

/-!
Passenger `StaticString` (ext/common/StaticString.h).

A shallow embedding of the immutable, non-owning byte view `Passenger::StaticString`
and of the few C / C++ library functions it calls (`strlen`, `memcmp`, the `std::string`
constructor, `append` and `operator+`, `ostream::write`).

Memory model.  A `const char *` is represented by the bytes of the array it points into,
from the pointer up to the end of that array.  An operation that would read beyond that
extent has undefined behaviour in C++; here it returns `none`.  A view is *valid* when its
length does not exceed the readable extent of its pointer.

Platform parameters.  Whether plain `char` is signed and the width of `size_t` are
implementation-defined; both are carried in `Abi`.
-/

namespace Passenger

/-! ## Memory, pointers, owned strings -/

/-- One byte of memory: the bit pattern of a `char`, read as `unsigned char`. -/
abbrev Byte := Fin 256

/-- A `const char *`: the bytes readable from the pointer to the end of its array. -/
abbrev CharPtr := List Byte

/-- A `std::string`: an owned sequence of bytes (zero bytes allowed). -/
abbrev string := List Byte

/-- Implementation-defined parameters of the C++ platform. -/
structure Abi where
  /-- Whether plain `char` is a signed type (x86 System V: yes; ARM EABI: no). -/
  charSigned : Bool
  /-- Width of `size_t` in bits. -/
  sizeBits : Nat
deriving DecidableEq

/-- The usual x86-64 System V platform: signed `char`, 64-bit `size_t`. -/
def Abi.x86_64 : Abi := ⟨true, 64⟩

/-- A platform with unsigned `char` and 64-bit `size_t` (e.g. AArch64 Linux). -/
def Abi.aarch64 : Abi := ⟨false, 64⟩

/-- The value of a `char` holding byte `c`, after integral promotion to `int`. -/
def charValue (abi : Abi) (c : Byte) : Int :=
  if abi.charSigned = true ∧ 128 ≤ c.val then (c.val : Int) - 256 else (c.val : Int)

/-- Conversion of a mathematical integer to `size_t`: reduction modulo `2 ^ sizeBits`. -/
def sizeT (abi : Abi) (z : Int) : Nat :=
  (z % (2 : Int) ^ abi.sizeBits).toNat

/-- C `strlen`: the number of bytes before the first zero byte.  Scanning off the end of
the array without meeting a zero byte is undefined. -/
def strlen : CharPtr → Option Nat
  | [] => none
  | c :: s => if c = 0 then some 0 else (strlen s).map (· + 1)

/-- The comparison loop of `memcmp` over the first `n` bytes, both arrays being long
enough: the difference of the first differing pair of bytes, read as `unsigned char`,
and `0` when there is none. -/
def memcmpLoop : CharPtr → CharPtr → Nat → Int
  | x :: s1, y :: s2, n + 1 =>
      if x = y then memcmpLoop s1 s2 n else (x.val : Int) - (y.val : Int)
  | _, _, _ => 0

/-- C `memcmp(s1, s2, n)`: undefined unless both arrays hold at least `n` bytes. -/
def memcmp (s1 s2 : CharPtr) (n : Nat) : Option Int :=
  if n ≤ s1.length ∧ n ≤ s2.length then some (memcmpLoop s1 s2 n) else none

/-- The pointer `s.data()` of an owned string: its bytes followed by the terminator. -/
def string.data (s : string) : CharPtr := s ++ [0]

/-- The pointer `s.c_str()` of an owned string: its bytes followed by the terminator. -/
def string.c_str (s : string) : CharPtr := s ++ [0]

/-- The size `s.size()` of an owned string. -/
def string.size (s : string) : Nat := s.length

/-- The constructor `std::string(const char *p, size_type n)`: copies `n` bytes from `p`. -/
def string.ofData (p : CharPtr) (n : Nat) : Option string :=
  if n ≤ p.length then some (p.take n) else none

/-- The call `s.append(p, n)`: `s` followed by `n` bytes copied from `p`. -/
def string.append (s : string) (p : CharPtr) (n : Nat) : Option string :=
  if n ≤ p.length then some (s ++ p.take n) else none

/-- The library `operator+(const std::string &, const std::string &)`. -/
def string.add (s t : string) : string := s ++ t

/-- The library `operator+(const std::string &, const char *)`: appends the `strlen(c)`
bytes of `c`. -/
def string.addCStr (s : string) (c : CharPtr) : Option string := do
  let n ← strlen c
  string.append s c n

/-- The class `StaticString`: a pointer and a length, nothing owned. -/
structure StaticString where
  content : CharPtr
  len : Nat
deriving DecidableEq

namespace StaticString

/-- The lifetime contract of a view: `content` is readable for `len` bytes. -/
def Valid (s : StaticString) : Prop := s.len ≤ s.content.length

instance (s : StaticString) : Decidable s.Valid := by
  unfold Valid; infer_instance

/-- The bytes a view denotes: the first `len` bytes at `content`. -/
def bytes (s : StaticString) : List Byte := s.content.take s.len

/-- `StaticString::Hash::operator()`, the loop `while (data != end)`: the second argument
is the distance `end - data`, the third the accumulator `result`. -/
def Hash.loop (abi : Abi) : CharPtr → Nat → Nat → Option Nat
  | _, 0, result => some result
  | [], _ + 1, _ => none
  | c :: data, n + 1, result =>
      Hash.loop abi data n (sizeT abi ((result : Int) * 33 + charValue abi c))

/-- `StaticString::Hash::operator()(const StaticString &str)`. -/
def Hash (abi : Abi) (str : StaticString) : Option Nat :=
  Hash.loop abi str.content str.len 0

/-- `StaticString()`: points at the literal `""` (one zero byte), length 0. -/
def new : StaticString := ⟨[0], 0⟩

/-- `StaticString(const StaticString &b)`. -/
def copy (b : StaticString) : StaticString := ⟨b.content, b.len⟩

/-- `StaticString(const string &s)`. -/
def ofString (s : string) : StaticString := ⟨string.data s, string.size s⟩

/-- `StaticString(const char *data)`. -/
def ofCStr (data : CharPtr) : Option StaticString := do
  let n ← strlen data
  pure ⟨data, n⟩

/-- `StaticString(const char *data, string::size_type len)`. -/
def ofData (data : CharPtr) (len : Nat) : StaticString := ⟨data, len⟩

/-- `bool empty() const`. -/
def empty (self : StaticString) : Bool := decide (self.len = 0)

/-- `string::size_type size() const`. -/
def size (self : StaticString) : Nat := self.len

/-- `char operator[](string::size_type i) const`. -/
def opIndex (self : StaticString) (i : Nat) : Option Byte := self.content[i]?

/-- `char at(string::size_type i) const`. -/
def at' (self : StaticString) (i : Nat) : Option Byte := self.content[i]?

/-- `const char *c_str() const`. -/
def c_str (self : StaticString) : CharPtr := self.content

/-- `const char *data() const`. -/
def data (self : StaticString) : CharPtr := self.content

/-- `string toString() const`. -/
def toString (self : StaticString) : Option string :=
  string.ofData self.content self.len

/-- `bool equals(const StaticString &other) const`. -/
def equals (self other : StaticString) : Option Bool :=
  if self.len = other.len then do
    let r ← memcmp self.content other.content self.len
    pure (decide (r = 0))
  else pure false

/-- `bool equals(const string &other) const`. -/
def equalsString (self : StaticString) (other : string) : Option Bool :=
  if self.len = string.size other then do
    let r ← memcmp self.content (string.data other) self.len
    pure (decide (r = 0))
  else pure false

/-- `bool operator==(const StaticString &other) const`. -/
def opEq (self other : StaticString) : Option Bool :=
  if self.len = other.len then do
    let r ← memcmp self.content other.content self.len
    pure (decide (r = 0))
  else pure false

/-- `bool operator==(const string &other) const`. -/
def opEqString (self : StaticString) (other : string) : Option Bool :=
  if self.len = string.size other then do
    let r ← memcmp self.content (string.data other) self.len
    pure (decide (r = 0))
  else pure false

/-- `bool operator==(const char *other) const`. -/
def opEqCStr (self : StaticString) (other : CharPtr) : Option Bool := do
  let other_len ← strlen other
  if self.len = other_len then do
    let r ← memcmp self.content other other_len
    pure (decide (r = 0))
  else pure false

/-- `bool operator!=(const StaticString &other) const`. -/
def opNe (self other : StaticString) : Option Bool :=
  if self.len ≠ other.len then pure true
  else do
    let r ← memcmp self.content other.content self.len
    pure (decide (r ≠ 0))

/-- `bool operator!=(const string &other) const`. -/
def opNeString (self : StaticString) (other : string) : Option Bool :=
  if self.len ≠ string.size other then pure true
  else do
    let r ← memcmp self.content (string.data other) self.len
    pure (decide (r ≠ 0))

/-- `bool operator!=(const char *other) const`. -/
def opNeCStr (self : StaticString) (other : CharPtr) : Option Bool := do
  let other_len ← strlen other
  if self.len ≠ other_len then pure true
  else do
    let r ← memcmp self.content other other_len
    pure (decide (r ≠ 0))

/-- `bool operator<(const StaticString &other) const`. -/
def opLt (self other : StaticString) : Option Bool := do
  let size := if self.len < other.size then self.len else other.size
  let result ← memcmp self.content other.data size
  if result = 0 then
    pure (decide (self.len < other.size))
  else
    pure (decide (result < 0))

/-- `bool operator<(const char *other) const`. -/
def opLtCStr (self : StaticString) (other : CharPtr) : Option Bool := do
  let o ← ofCStr other
  self.opLt o

/-- `string operator+(const char *other) const`. -/
def opAddCStr (self : StaticString) (other : CharPtr) : Option string := do
  let s ← string.ofData self.content self.len
  string.addCStr s other

/-- `string operator+(const string &other) const`. -/
def opAddString (self : StaticString) (other : string) : Option string := do
  let s ← string.ofData self.content self.len
  pure (string.add s other)

/-- `string operator+(const StaticString &other) const`. -/
def opAdd (self other : StaticString) : Option string := do
  let result ← string.ofData self.content self.len
  string.append result other.data other.size

/-- `operator string() const`. -/
def opString (self : StaticString) : Option string :=
  string.ofData self.content self.len

end StaticString

/-- The free `operator+(const char *lhs, const StaticString &rhs)`. -/
def cstrAdd (lhs : CharPtr) (rhs : StaticString) : Option string := do
  let l ← StaticString.ofCStr lhs
  l.opAdd rhs

/-- The free `operator+(const string &lhs, const StaticString &rhs)`. -/
def stringAdd (lhs : string) (rhs : StaticString) : Option string :=
  let result := lhs
  string.append result rhs.data rhs.size

/-- The bytes of a null-terminated buffer: those before its first zero byte. -/
def cstrBytes (c : CharPtr) : List Byte :=
  c.takeWhile (fun b => decide (b ≠ 0))

/-- The hash of a byte sequence in the words of the specification: start from `0` and,
for each byte in order, set `accumulator = accumulator * 33 + byte` with the byte's value
`0..255`, in arithmetic modulo `2 ^ w`. -/
def specHash (w : Nat) (bs : List Byte) : Nat :=
  bs.foldl (fun acc b => (acc * 33 + b.val) % 2 ^ w) 0

/-- What a byte contributes to the accumulator once it has passed through plain `char`:
its value `0..255`, except that a byte of 128 or more under a signed `char` counts as its
value minus 256, which modulo `2 ^ sizeBits` is `2 ^ sizeBits - 256 +` its value. -/
def charTerm (abi : Abi) (b : Byte) : Nat :=
  if abi.charSigned = true ∧ 128 ≤ b.val then 2 ^ abi.sizeBits - 256 + b.val else b.val

/-- The hash of a byte sequence with every byte taken through plain `char`: start from
`0` and set `accumulator = accumulator * 33 + charTerm byte` modulo `2 ^ sizeBits`. -/
def charHash (abi : Abi) (bs : List Byte) : Nat :=
  bs.foldl (fun acc b => (acc * 33 + charTerm abi b) % 2 ^ abi.sizeBits) 0

/-- Lexicographic order on byte sequences, bytes compared as unsigned values: the first
differing byte decides, and a sequence that runs out first is the smaller. -/
def lexLt : List Byte → List Byte → Bool
  | [], [] => false
  | [], _ :: _ => true
  | _ :: _, [] => false
  | x :: xs, y :: ys => if x = y then lexLt xs ys else decide (x.val < y.val)

/-! ## Sanity checks on concrete inputs -/

example : StaticString.Hash Abi.x86_64 (StaticString.ofData [97, 98, 0] 2) = some 3299 := by
  decide
example : (StaticString.ofCStr [102, 111, 111, 0]).map StaticString.size = some 3 := by decide
example : StaticString.opLt ⟨[97, 98, 99], 3⟩ ⟨[97, 98, 100], 3⟩ = some true := by decide
example : StaticString.opLt ⟨[97, 98], 2⟩ ⟨[97, 98, 99], 3⟩ = some true := by decide
example : StaticString.opEq ⟨[97, 98], 2⟩ ⟨[97, 98, 99], 2⟩ = some true := by decide
example : StaticString.opEq ⟨[97, 98], 3⟩ ⟨[97, 98, 99], 3⟩ = none := by decide

/-! ## Library functions: what `strlen` and `memcmp` compute -/

theorem strlen_of_mem (c : CharPtr) (h : (0 : Byte) ∈ c) :
    strlen c = some (cstrBytes c).length := by
  unfold cstrBytes
  induction c with
  | nil => simp at h
  | cons x c ih =>
    by_cases hx : x = 0
    · simp [strlen, hx]
    · have hc : (0 : Byte) ∈ c := by
        rcases List.mem_cons.mp h with h0 | h0
        · exact absurd h0.symm hx
        · exact h0
      simp [strlen, hx, ih hc]

theorem take_length_cstrBytes (c : CharPtr) : c.take (cstrBytes c).length = cstrBytes c := by
  unfold cstrBytes
  induction c with
  | nil => rfl
  | cons x c ih =>
    by_cases hx : x = 0
    · simp [List.takeWhile_cons, hx]
    · simpa [List.takeWhile_cons, hx] using ih

theorem length_cstrBytes_le (c : CharPtr) : (cstrBytes c).length ≤ c.length := by
  unfold cstrBytes
  induction c with
  | nil => simp
  | cons x c ih =>
    by_cases hx : x = 0
    · simp [List.takeWhile_cons, hx]
    · simpa [List.takeWhile_cons, hx] using ih

theorem strlen_le (c : CharPtr) (n : Nat) (h : strlen c = some n) : n ≤ c.length := by
  induction c generalizing n with
  | nil => simp [strlen] at h
  | cons x c ih =>
    by_cases hx : x = 0
    · simp [strlen, hx] at h
      omega
    · simp only [strlen, hx, if_false, Option.map_eq_some'] at h
      obtain ⟨m, hm, rfl⟩ := h
      have := ih m hm
      simp only [List.length_cons]
      omega

theorem memcmpLoop_eq_zero_iff (s1 s2 : CharPtr) (n : Nat)
    (h1 : n ≤ s1.length) (h2 : n ≤ s2.length) :
    memcmpLoop s1 s2 n = 0 ↔ ∀ i, i < n → s1[i]? = s2[i]? := by
  induction n generalizing s1 s2 with
  | zero => simp [memcmpLoop]
  | succ n ih =>
    cases s1 with
    | nil => simp at h1
    | cons x s1 =>
      cases s2 with
      | nil => simp at h2
      | cons y s2 =>
        simp only [List.length_cons, Nat.add_le_add_iff_right] at h1 h2
        by_cases hxy : x = y
        · subst hxy
          simp only [memcmpLoop, if_true]
          rw [ih s1 s2 h1 h2]
          constructor
          · intro h i hi
            cases i with
            | zero => simp
            | succ i => simpa using h i (by omega)
          · intro h i hi
            simpa using h (i + 1) (by omega)
        · simp only [memcmpLoop, if_neg hxy]
          constructor
          · intro h
            have := Fin.val_ne_of_ne hxy
            omega
          · intro h
            have := h 0 (by omega)
            simp at this
            exact absurd this hxy

theorem take_eq_iff_getElem? (s1 s2 : CharPtr) (n : Nat) :
    s1.take n = s2.take n ↔ ∀ i, i < n → s1[i]? = s2[i]? := by
  constructor
  · intro h i hi
    have := congrArg (fun l => l[i]?) h
    simpa [List.getElem?_take, hi] using this
  · intro h
    apply List.ext_getElem?
    intro i
    by_cases hi : i < n
    · simp [List.getElem?_take, hi, h i hi]
    · simp [List.getElem?_take, hi]

theorem memcmpLoop_eq_zero_iff_take (s1 s2 : CharPtr) (n : Nat)
    (h1 : n ≤ s1.length) (h2 : n ≤ s2.length) :
    memcmpLoop s1 s2 n = 0 ↔ s1.take n = s2.take n := by
  rw [memcmpLoop_eq_zero_iff s1 s2 n h1 h2, take_eq_iff_getElem? s1 s2 n]

theorem memcmpLoop_swap (s1 s2 : CharPtr) (n : Nat) :
    memcmpLoop s2 s1 n = - memcmpLoop s1 s2 n := by
  induction n generalizing s1 s2 with
  | zero => cases s1 <;> cases s2 <;> simp [memcmpLoop]
  | succ n ih =>
    cases s1 with
    | nil => cases s2 <;> simp [memcmpLoop]
    | cons x s1 =>
      cases s2 with
      | nil => simp [memcmpLoop]
      | cons y s2 =>
        by_cases hxy : x = y
        · subst hxy
          simp only [memcmpLoop, if_true]
          exact ih s1 s2
        · have hyx : ¬ y = x := fun h => hxy h.symm
          simp only [memcmpLoop, if_neg hxy, if_neg hyx]
          omega

theorem memcmpLoop_neg_iff (s1 s2 : CharPtr) (n : Nat)
    (h1 : n ≤ s1.length) (h2 : n ≤ s2.length) :
    memcmpLoop s1 s2 n < 0 ↔
      ∃ i, i < n ∧ (∀ j, j < i → s1[j]? = s2[j]?) ∧
        ∃ x y, s1[i]? = some x ∧ s2[i]? = some y ∧ x.val < y.val := by
  induction n generalizing s1 s2 with
  | zero => simp [memcmpLoop]
  | succ n ih =>
    cases s1 with
    | nil => simp at h1
    | cons x s1 =>
      cases s2 with
      | nil => simp at h2
      | cons y s2 =>
        simp only [List.length_cons, Nat.add_le_add_iff_right] at h1 h2
        by_cases hxy : x = y
        · subst hxy
          simp only [memcmpLoop, if_true]
          rw [ih s1 s2 h1 h2]
          constructor
          · rintro ⟨i, hi, hj, a, b, ha, hb, hab⟩
            refine ⟨i + 1, by omega, ?_, a, b, by simpa using ha, by simpa using hb, hab⟩
            intro j hj'
            cases j with
            | zero => simp
            | succ j => simpa using hj j (by omega)
          · rintro ⟨i, hi, hj, a, b, ha, hb, hab⟩
            cases i with
            | zero =>
              simp only [List.getElem?_cons_zero, Option.some.injEq] at ha hb
              subst ha
              subst hb
              omega
            | succ i =>
              refine ⟨i, by omega, ?_, a, b, by simpa using ha, by simpa using hb, hab⟩
              intro j hj'
              simpa using hj (j + 1) (by omega)
        · simp only [memcmpLoop, if_neg hxy]
          constructor
          · intro h
            exact ⟨0, by omega, by intro j hj; omega, x, y, by simp, by simp, by omega⟩
          · rintro ⟨i, hi, hj, a, b, ha, hb, hab⟩
            cases i with
            | zero =>
              simp only [List.getElem?_cons_zero, Option.some.injEq] at ha hb
              subst ha
              subst hb
              omega
            | succ i =>
              have := hj 0 (by omega)
              simp at this
              exact absurd this hxy

/-! ## The operators in terms of the bytes a view denotes -/

namespace StaticString

theorem length_bytes (a : StaticString) (ha : a.Valid) : a.bytes.length = a.len := by
  unfold Valid at ha
  simp [bytes, List.length_take, ha]

theorem opEq_eq (a b : StaticString) (ha : a.Valid) (hb : b.Valid) :
    a.opEq b = some (decide (a.bytes = b.bytes)) := by
  unfold Valid at ha hb
  unfold opEq
  by_cases hl : a.len = b.len
  · have hb' : a.len ≤ b.content.length := by omega
    have hz := memcmpLoop_eq_zero_iff_take a.content b.content a.len ha hb'
    simp only [hl.symm, bytes] at hz ⊢
    simp [memcmp, ha, hb', hz]
  · have hne : a.bytes ≠ b.bytes := by
      intro h
      have := congrArg List.length h
      rw [length_bytes a ha, length_bytes b hb] at this
      exact hl this
    simp [hl, hne]

theorem opEq_true_inv (a b : StaticString) (h : a.opEq b = some true) :
    a.Valid ∧ b.Valid ∧ a.len = b.len ∧ a.bytes = b.bytes := by
  unfold opEq at h
  by_cases hl : a.len = b.len
  · simp only [hl, if_true, memcmp] at h
    by_cases hv : b.len ≤ a.content.length ∧ b.len ≤ b.content.length
    · have ha : a.Valid := by unfold Valid; omega
      have hb : b.Valid := hv.2
      have := opEq_eq a b ha hb
      refine ⟨ha, hb, hl, ?_⟩
      have h2 : a.opEq b = some true := by
        unfold opEq
        simp only [hl, if_true, memcmp]
        exact h
      rw [this] at h2
      simpa using h2
    · simp [hv] at h
  · simp [hl] at h

theorem opLt_eq (a b : StaticString) (ha : a.Valid) (hb : b.Valid) :
    a.opLt b = some
      (if memcmpLoop a.content b.content (min a.len b.len) = 0 then decide (a.len < b.len)
       else decide (memcmpLoop a.content b.content (min a.len b.len) < 0)) := by
  unfold Valid at ha hb
  have hm : (if a.len < b.len then a.len else b.len) = min a.len b.len := by
    by_cases h : a.len < b.len
    · simp [h, Nat.min_eq_left (Nat.le_of_lt h)]
    · simp [h, Nat.min_eq_right (Nat.le_of_not_lt h)]
  have h1 : min a.len b.len ≤ a.content.length := by omega
  have h2 : min a.len b.len ≤ b.content.length := by omega
  unfold opLt
  simp only [size, data, hm, memcmp, h1, h2, and_self, if_true, Option.pure_def,
    Option.bind_eq_bind, Option.some_bind]
  split <;> rfl

end StaticString

/-! ## Equality and ordering of views -/

/-- Claim C1: for valid views `a` and `b`, `a == b` (and likewise `a.equals(b)`) returns,
and returns true exactly when `a.size() == b.size()` and `a[i]` equals `b[i]` at every
index `i < a.size()`. -/
theorem opEq_iff_size_and_bytes (a b : StaticString) (ha : a.Valid) (hb : b.Valid) :
    ∃ r, a.opEq b = some r ∧ a.equals b = some r ∧
      (r = true ↔ a.size = b.size ∧ ∀ i, i < a.size → a.opIndex i = b.opIndex i) := by
  refine ⟨decide (a.bytes = b.bytes), StaticString.opEq_eq a b ha hb,
    StaticString.opEq_eq a b ha hb, ?_⟩
  unfold StaticString.Valid at ha hb
  simp only [decide_eq_true_eq, StaticString.size, StaticString.opIndex, StaticString.bytes]
  constructor
  · intro h
    have hl : a.len = b.len := by
      have := congrArg List.length h
      simpa [List.length_take, ha, hb] using this
    refine ⟨hl, ?_⟩
    rw [← hl] at h
    exact (take_eq_iff_getElem? a.content b.content a.len).mp h
  · rintro ⟨hl, h⟩
    rw [← hl]
    exact (take_eq_iff_getElem? a.content b.content a.len).mpr h

/-- Witness for C1: two views into different buffers, with a zero byte inside. -/
theorem opEq_iff_size_and_bytes_witness :
    StaticString.Valid ⟨[97, 0, 98, 7], 3⟩ ∧ StaticString.Valid ⟨[97, 0, 98], 3⟩ ∧
    ∃ r, StaticString.opEq ⟨[97, 0, 98, 7], 3⟩ ⟨[97, 0, 98], 3⟩ = some r ∧
      StaticString.equals ⟨[97, 0, 98, 7], 3⟩ ⟨[97, 0, 98], 3⟩ = some r ∧
      (r = true ↔ StaticString.size ⟨[97, 0, 98, 7], 3⟩ = StaticString.size ⟨[97, 0, 98], 3⟩ ∧
        ∀ i, i < StaticString.size ⟨[97, 0, 98, 7], 3⟩ →
          StaticString.opIndex ⟨[97, 0, 98, 7], 3⟩ i = StaticString.opIndex ⟨[97, 0, 98], 3⟩ i) :=
  ⟨by decide, by decide, opEq_iff_size_and_bytes _ _ (by decide) (by decide)⟩

/-- Claim C2: for valid views `a` and `b`, `a < b` returns, and returns true exactly when
either there is a first index `i < min(a.size(), b.size())` at which the bytes differ and
`a[i]`, read as an unsigned value, is below `b[i]`, or the first `min(a.size(), b.size())`
bytes agree and `a.size() < b.size()`.  Zero bytes are bytes like any other. -/
theorem opLt_iff_first_difference (a b : StaticString) (ha : a.Valid) (hb : b.Valid) :
    ∃ r, a.opLt b = some r ∧
      (r = true ↔
        (∃ i, i < min a.size b.size ∧ (∀ j, j < i → a.opIndex j = b.opIndex j) ∧
          ∃ x y, a.opIndex i = some x ∧ b.opIndex i = some y ∧ x ≠ y ∧ x.val < y.val) ∨
        ((∀ j, j < min a.size b.size → a.opIndex j = b.opIndex j) ∧ a.size < b.size)) := by
  refine ⟨_, StaticString.opLt_eq a b ha hb, ?_⟩
  unfold StaticString.Valid at ha hb
  have h1 : min a.len b.len ≤ a.content.length := by omega
  have h2 : min a.len b.len ≤ b.content.length := by omega
  have hz := memcmpLoop_eq_zero_iff a.content b.content _ h1 h2
  have hn := memcmpLoop_neg_iff a.content b.content _ h1 h2
  simp only [StaticString.size, StaticString.opIndex]
  by_cases h0 : memcmpLoop a.content b.content (min a.len b.len) = 0
  · simp only [h0, if_true, decide_eq_true_eq]
    have hall := hz.mp h0
    constructor
    · intro h
      exact Or.inr ⟨hall, h⟩
    · rintro (⟨i, hi, _, x, y, hx, hy, hxy, _⟩ | ⟨_, h⟩)
      · have := hall i hi
        rw [hx, hy] at this
        exact absurd (Option.some.inj this) hxy
      · exact h
  · simp only [h0, if_false, decide_eq_true_eq]
    constructor
    · intro h
      obtain ⟨i, hi, hj, x, y, hx, hy, hxy⟩ := hn.mp h
      exact Or.inl ⟨i, hi, hj, x, y, hx, hy, fun e => by rw [e] at hxy; omega, hxy⟩
    · rintro (⟨i, hi, hj, x, y, hx, hy, _, hxy⟩ | ⟨hall, _⟩)
      · exact hn.mpr ⟨i, hi, hj, x, y, hx, hy, hxy⟩
      · exact absurd (hz.mpr hall) h0

/-- Witness for C2: the views differ after a shared zero byte, `0x7f < 0x80` unsigned. -/
theorem opLt_iff_first_difference_witness :
    StaticString.Valid ⟨[97, 0, 127], 3⟩ ∧ StaticString.Valid ⟨[97, 0, 128, 1], 4⟩ ∧
    StaticString.opLt ⟨[97, 0, 127], 3⟩ ⟨[97, 0, 128, 1], 4⟩ = some true ∧
    ∃ r, StaticString.opLt ⟨[97, 0, 127], 3⟩ ⟨[97, 0, 128, 1], 4⟩ = some r ∧
      (r = true ↔
        (∃ i, i < min (StaticString.size ⟨[97, 0, 127], 3⟩)
                (StaticString.size ⟨[97, 0, 128, 1], 4⟩) ∧
          (∀ j, j < i → StaticString.opIndex ⟨[97, 0, 127], 3⟩ j =
            StaticString.opIndex ⟨[97, 0, 128, 1], 4⟩ j) ∧
          ∃ x y, StaticString.opIndex ⟨[97, 0, 127], 3⟩ i = some x ∧
            StaticString.opIndex ⟨[97, 0, 128, 1], 4⟩ i = some y ∧ x ≠ y ∧ x.val < y.val) ∨
        ((∀ j, j < min (StaticString.size ⟨[97, 0, 127], 3⟩)
                (StaticString.size ⟨[97, 0, 128, 1], 4⟩) →
            StaticString.opIndex ⟨[97, 0, 127], 3⟩ j =
              StaticString.opIndex ⟨[97, 0, 128, 1], 4⟩ j) ∧
          StaticString.size ⟨[97, 0, 127], 3⟩ < StaticString.size ⟨[97, 0, 128, 1], 4⟩)) :=
  ⟨by decide, by decide, by decide, opLt_iff_first_difference _ _ (by decide) (by decide)⟩

/-- Claim C3: for valid views `a` and `b`, the three comparisons `a < b`, `b < a` and
`a == b` all return, and exactly one of them returns true. -/
theorem opLt_opEq_trichotomy (a b : StaticString) (ha : a.Valid) (hb : b.Valid) :
    ∃ lt gt eq, a.opLt b = some lt ∧ b.opLt a = some gt ∧ a.opEq b = some eq ∧
      ((lt = true ∧ gt = false ∧ eq = false) ∨ (lt = false ∧ gt = true ∧ eq = false) ∨
        (lt = false ∧ gt = false ∧ eq = true)) := by
  refine ⟨_, _, _, StaticString.opLt_eq a b ha hb, StaticString.opLt_eq b a hb ha,
    StaticString.opEq_eq a b ha hb, ?_⟩
  have hla := StaticString.length_bytes a ha
  have hlb := StaticString.length_bytes b hb
  unfold StaticString.Valid at ha hb
  have h1 : min a.len b.len ≤ a.content.length := by omega
  have h2 : min a.len b.len ≤ b.content.length := by omega
  have hz := memcmpLoop_eq_zero_iff_take a.content b.content _ h1 h2
  have hsw := memcmpLoop_swap a.content b.content (min a.len b.len)
  rw [Nat.min_comm b.len a.len, hsw]
  have hbytes : a.bytes = b.bytes ↔
      a.len = b.len ∧ memcmpLoop a.content b.content (min a.len b.len) = 0 := by
    constructor
    · intro h
      have hl : a.len = b.len := by
        have := congrArg List.length h
        rwa [hla, hlb] at this
      refine ⟨hl, hz.mpr ?_⟩
      unfold StaticString.bytes at h
      rw [← hl] at h ⊢
      simpa using h
    · rintro ⟨hl, h0⟩
      have := hz.mp h0
      unfold StaticString.bytes
      rw [← hl] at this ⊢
      simpa using this
  by_cases h0 : memcmpLoop a.content b.content (min a.len b.len) = 0
  · simp only [h0, neg_zero, if_true, hbytes, and_true]
    rcases Nat.lt_trichotomy a.len b.len with h | h | h
    · left
      simp; omega
    · right; right
      simp; omega
    · right; left
      simp; omega
  · have h0' : ¬ (- memcmpLoop a.content b.content (min a.len b.len) = 0) := by omega
    simp only [h0, h0', if_false, hbytes, and_false, decide_False]
    by_cases hneg : memcmpLoop a.content b.content (min a.len b.len) < 0
    · left
      simp; omega
    · right; left
      simp; omega

/-- Witness for C3: a proper prefix and its extension, in different buffers. -/
theorem opLt_opEq_trichotomy_witness :
    StaticString.Valid ⟨[97, 98, 0], 2⟩ ∧ StaticString.Valid ⟨[97, 98, 99, 0], 3⟩ ∧
    ∃ lt gt eq, StaticString.opLt ⟨[97, 98, 0], 2⟩ ⟨[97, 98, 99, 0], 3⟩ = some lt ∧
      StaticString.opLt ⟨[97, 98, 99, 0], 3⟩ ⟨[97, 98, 0], 2⟩ = some gt ∧
      StaticString.opEq ⟨[97, 98, 0], 2⟩ ⟨[97, 98, 99, 0], 3⟩ = some eq ∧
      ((lt = true ∧ gt = false ∧ eq = false) ∨ (lt = false ∧ gt = true ∧ eq = false) ∨
        (lt = false ∧ gt = false ∧ eq = true)) :=
  ⟨by decide, by decide, opLt_opEq_trichotomy _ _ (by decide) (by decide)⟩

/-! ## Hashing -/

theorem sizeT_natCast (abi : Abi) (n : Nat) : sizeT abi (n : Int) = n % 2 ^ abi.sizeBits := by
  unfold sizeT
  have h : ((n : Int) % (2 : Int) ^ abi.sizeBits) = ((n % 2 ^ abi.sizeBits : Nat) : Int) := by
    push_cast
    rfl
  rw [h, Int.toNat_natCast]

theorem sizeT_step (abi : Abi) (h8 : 8 ≤ abi.sizeBits) (r : Nat) (c : Byte) :
    sizeT abi ((r : Int) * 33 + charValue abi c) = (r * 33 + charTerm abi c) % 2 ^ abi.sizeBits := by
  have h256 : 256 ≤ 2 ^ abi.sizeBits :=
    calc 256 = 2 ^ 8 := by norm_num
      _ ≤ 2 ^ abi.sizeBits := Nat.pow_le_pow_right (by norm_num) h8
  rw [← sizeT_natCast]
  unfold charValue charTerm
  by_cases hs : abi.charSigned = true ∧ 128 ≤ c.val
  · simp only [hs, and_self, if_true]
    have e : ((r : Int) * 33 + ((c.val : Int) - 256)) =
        ((r * 33 + (2 ^ abi.sizeBits - 256 + c.val) : Nat) : Int) - (2 : Int) ^ abi.sizeBits := by
      push_cast [Nat.cast_sub h256]
      ring
    rw [e]
    unfold sizeT
    rw [Int.emod_sub_cancel]
  · simp only [hs, if_false]
    congr 1

theorem Hash.loop_eq (abi : Abi) (s : CharPtr) (n acc : Nat) (h : n ≤ s.length) :
    StaticString.Hash.loop abi s n acc =
      some ((s.take n).foldl
        (fun r c => sizeT abi ((r : Int) * 33 + charValue abi c)) acc) := by
  induction n generalizing s acc with
  | zero => simp [StaticString.Hash.loop]
  | succ n ih =>
    cases s with
    | nil => simp at h
    | cons c s =>
      simp only [List.length_cons, Nat.add_le_add_iff_right] at h
      simp only [StaticString.Hash.loop, List.take_succ_cons, List.foldl_cons]
      exact ih s _ h

theorem foldl_congr_step {β : Type} (f g : β → Byte → β) (bs : List Byte) (acc : β)
    (h : ∀ r b, b ∈ bs → f r b = g r b) : bs.foldl f acc = bs.foldl g acc := by
  induction bs generalizing acc with
  | nil => rfl
  | cons b bs ih =>
    simp only [List.foldl_cons]
    rw [h acc b (List.mem_cons_self b bs)]
    exact ih _ (fun r x hx => h r x (List.mem_cons_of_mem b hx))

theorem Hash_eq_charHash (abi : Abi) (v : StaticString) (hv : v.Valid)
    (h8 : 8 ≤ abi.sizeBits) : StaticString.Hash abi v = some (charHash abi v.bytes) := by
  unfold StaticString.Hash
  rw [Hash.loop_eq abi v.content v.len 0 hv]
  unfold charHash StaticString.bytes
  congr 1
  exact foldl_congr_step _ _ _ _ (fun r b _ => sizeT_step abi h8 r b)

/-- Claim C4, as the code has it: for every valid view `v` and `size_t` of at least 8 bits,
the hash is the accumulator started at 0 and updated, byte by byte in order, to
`accumulator * 33 + c` modulo `2 ^ w`, where `c` is the byte as a plain `char`: the byte's
value `0..255` when `char` is unsigned or the byte is below 128, and that value minus 256
(that is, `2 ^ w - 256 +` the value) when `char` is signed and the byte is 128 or more.
Where `char` is unsigned, or all bytes are below 128, this is the hash of the specification;
the hash of `"ab"` is 3299 once `size_t` has 12 bits. -/
theorem Hash_eq_fold (abi : Abi) (v : StaticString) (hv : v.Valid) (h8 : 8 ≤ abi.sizeBits) :
    StaticString.Hash abi v = some (charHash abi v.bytes) ∧
    ((abi.charSigned = false ∨ ∀ b, b ∈ v.bytes → b.val < 128) →
      StaticString.Hash abi v = some (specHash abi.sizeBits v.bytes)) ∧
    (12 ≤ abi.sizeBits → StaticString.Hash abi (StaticString.ofData [97, 98, 0] 2) = some 3299) := by
  refine ⟨Hash_eq_charHash abi v hv h8, ?_, ?_⟩
  · intro h
    rw [Hash_eq_charHash abi v hv h8]
    unfold charHash specHash
    congr 1
    apply foldl_congr_step
    intro r b hb
    have hc : charTerm abi b = b.val := by
      unfold charTerm
      rcases h with h | h
      · simp [h]
      · have := h b hb
        rw [if_neg]
        omega
    rw [hc]
  · intro h12
    have h4096 : 4096 ≤ 2 ^ abi.sizeBits :=
      calc 4096 = 2 ^ 12 := by norm_num
        _ ≤ 2 ^ abi.sizeBits := Nat.pow_le_pow_right (by norm_num) h12
    rw [Hash_eq_charHash abi _ (by decide) h8]
    have e : (StaticString.ofData [97, 98, 0] 2).bytes = [97, 98] := by decide
    rw [e]
    have c1 : charTerm abi (97 : Byte) = 97 := by
      unfold charTerm
      rw [if_neg]
      · rfl
      · intro h
        exact absurd h.2 (by decide)
    have c2 : charTerm abi (98 : Byte) = 98 := by
      unfold charTerm
      rw [if_neg]
      · rfl
      · intro h
        exact absurd h.2 (by decide)
    simp only [charHash, List.foldl_cons, List.foldl_nil, c1, c2]
    have m1 : (0 * 33 + 97) % 2 ^ abi.sizeBits = 97 := Nat.mod_eq_of_lt (by omega)
    have m2 : (97 * 33 + 98) % 2 ^ abi.sizeBits = 97 * 33 + 98 :=
      Nat.mod_eq_of_lt (by omega)
    rw [m1, m2]

/-- Witness for C4 (amended): a view with a byte above 127 on x86-64, where `char` is
signed. -/
theorem Hash_eq_fold_witness :
    StaticString.Valid ⟨[97, 200, 0], 2⟩ ∧ 8 ≤ Abi.x86_64.sizeBits ∧
    StaticString.Hash Abi.x86_64 ⟨[97, 200, 0], 2⟩ = some 3145 ∧
    (StaticString.Hash Abi.x86_64 ⟨[97, 200, 0], 2⟩ =
        some (charHash Abi.x86_64 (StaticString.bytes ⟨[97, 200, 0], 2⟩)) ∧
      ((Abi.x86_64.charSigned = false ∨
          ∀ b, b ∈ StaticString.bytes ⟨[97, 200, 0], 2⟩ → b.val < 128) →
        StaticString.Hash Abi.x86_64 ⟨[97, 200, 0], 2⟩ =
          some (specHash Abi.x86_64.sizeBits (StaticString.bytes ⟨[97, 200, 0], 2⟩))) ∧
      (12 ≤ Abi.x86_64.sizeBits →
        StaticString.Hash Abi.x86_64 (StaticString.ofData [97, 98, 0] 2) = some 3299)) :=
  ⟨by decide, by decide, by decide, Hash_eq_fold Abi.x86_64 _ (by decide) (by decide)⟩

/-- Counterexample to C4 as stated: on x86-64 (signed `char`, 64-bit `size_t`) the view
holding the single byte `0xC8` = 200 hashes to `2 ^ 64 - 56`, not to 200. -/
theorem Hash_ne_specHash_signed_char :
    StaticString.Valid ⟨[200, 0], 1⟩ ∧
    specHash 64 (StaticString.bytes ⟨[200, 0], 1⟩) = 200 ∧
    StaticString.Hash Abi.x86_64 ⟨[200, 0], 1⟩ = some 18446744073709551560 ∧
    StaticString.Hash Abi.x86_64 ⟨[200, 0], 1⟩ ≠
      some (specHash Abi.x86_64.sizeBits (StaticString.bytes ⟨[200, 0], 1⟩)) := by
  refine ⟨by decide, by decide, by decide, by decide⟩

/-- Claim C5: if `a == b` returns true then hashing `a` and hashing `b` both return, with
the same value, whatever buffers the two views point into. -/
theorem Hash_eq_of_opEq (abi : Abi) (a b : StaticString) (h : a.opEq b = some true) :
    ∃ x, StaticString.Hash abi a = some x ∧ StaticString.Hash abi b = some x := by
  obtain ⟨ha, hb, _, hbytes⟩ := StaticString.opEq_true_inv a b h
  refine ⟨_, Hash.loop_eq abi a.content a.len 0 ha, ?_⟩
  unfold StaticString.Hash
  rw [Hash.loop_eq abi b.content b.len 0 hb]
  unfold StaticString.bytes at hbytes
  rw [hbytes]

/-- Witness for C5: equal views over different buffers, with a byte above 127. -/
theorem Hash_eq_of_opEq_witness :
    StaticString.opEq ⟨[97, 200, 0], 2⟩ ⟨[97, 200, 98, 99], 2⟩ = some true ∧
    ∃ x, StaticString.Hash Abi.x86_64 ⟨[97, 200, 0], 2⟩ = some x ∧
      StaticString.Hash Abi.x86_64 ⟨[97, 200, 98, 99], 2⟩ = some x :=
  ⟨by decide, Hash_eq_of_opEq Abi.x86_64 _ _ (by decide)⟩

/-! ## Construction from owned strings and null-terminated buffers -/

theorem valid_ofString (s : string) : (StaticString.ofString s).Valid := by
  simp [StaticString.Valid, StaticString.ofString, string.data, string.size]

theorem bytes_ofString (s : string) : (StaticString.ofString s).bytes = s := by
  simp [StaticString.bytes, StaticString.ofString, string.data, string.size]

theorem ofCStr_of_mem (c : CharPtr) (hc : (0 : Byte) ∈ c) :
    ∃ cv, StaticString.ofCStr c = some cv ∧ cv.content = c ∧
      cv.len = (cstrBytes c).length ∧ cv.Valid ∧
      cv.bytes = cstrBytes c := by
  refine ⟨⟨c, (cstrBytes c).length⟩, ?_, rfl, rfl, ?_, ?_⟩
  · simp [StaticString.ofCStr, strlen_of_mem c hc]
  · exact length_cstrBytes_le c
  · exact take_length_cstrBytes c

/-! ## Concatenation and conversion to an owned string -/

theorem opAdd_eq (a b : StaticString) (ha : a.Valid) (hb : b.Valid) :
    a.opAdd b = some (a.bytes ++ b.bytes) := by
  unfold StaticString.Valid at ha hb
  simp [StaticString.opAdd, string.ofData, string.append, StaticString.data,
    StaticString.size, StaticString.bytes, ha, hb]

/-- Claim C6: for valid views `a` and `b`, `a + b` returns an owned string of size
`a.size() + b.size()` whose first `a.size()` bytes are those of `a` in order and whose
remaining `b.size()` bytes are those of `b` in order, zero bytes included. -/
theorem opAdd_size_and_bytes (a b : StaticString) (ha : a.Valid) (hb : b.Valid) :
    ∃ r, a.opAdd b = some r ∧ string.size r = a.size + b.size ∧
      (∀ i, i < a.size → r[i]? = a.opIndex i) ∧
      (∀ j, j < b.size → r[a.size + j]? = b.opIndex j) := by
  have hla := StaticString.length_bytes a ha
  have hlb := StaticString.length_bytes b hb
  refine ⟨a.bytes ++ b.bytes, opAdd_eq a b ha hb, ?_, ?_, ?_⟩
  · simp [string.size, StaticString.size, hla, hlb]
  · intro i hi
    simp only [StaticString.size] at hi
    rw [List.getElem?_append_left (by omega)]
    simp [StaticString.bytes, StaticString.opIndex, List.getElem?_take, hi]
  · intro j hj
    simp only [StaticString.size] at hj ⊢
    rw [List.getElem?_append_right (by omega), hla]
    simp [StaticString.bytes, StaticString.opIndex, List.getElem?_take, hj]

/-- Witness for C6: both operands carry a zero byte and sit inside larger buffers. -/
theorem opAdd_size_and_bytes_witness :
    StaticString.Valid ⟨[97, 0, 98, 99], 3⟩ ∧ StaticString.Valid ⟨[0, 100, 0], 2⟩ ∧
    StaticString.opAdd ⟨[97, 0, 98, 99], 3⟩ ⟨[0, 100, 0], 2⟩ = some [97, 0, 98, 0, 100] ∧
    ∃ r, StaticString.opAdd ⟨[97, 0, 98, 99], 3⟩ ⟨[0, 100, 0], 2⟩ = some r ∧
      string.size r =
        StaticString.size ⟨[97, 0, 98, 99], 3⟩ + StaticString.size ⟨[0, 100, 0], 2⟩ ∧
      (∀ i, i < StaticString.size ⟨[97, 0, 98, 99], 3⟩ →
        r[i]? = StaticString.opIndex ⟨[97, 0, 98, 99], 3⟩ i) ∧
      (∀ j, j < StaticString.size ⟨[0, 100, 0], 2⟩ →
        r[StaticString.size ⟨[97, 0, 98, 99], 3⟩ + j]? =
          StaticString.opIndex ⟨[0, 100, 0], 2⟩ j) :=
  ⟨by decide, by decide, by decide, opAdd_size_and_bytes _ _ (by decide) (by decide)⟩

/-- Claim C7: for a valid view `v`, an owned string `s` and a null-terminated buffer `c`,
each mixed overload returns what view-with-view concatenation of the corresponding views
returns: `v + s` as `v + StaticString(s)`, `s + v` as `StaticString(s) + v`, `v + c` as
`v + StaticString(c)` and `c + v` as `StaticString(c) + v`; the result is the left
operand's bytes followed by the right operand's, its length the sum of the two lengths;
`StaticString("foo") + "bar"` is `"foobar"`. -/
theorem mixed_opAdd_eq_opAdd (v : StaticString) (s : string) (c : CharPtr)
    (hv : v.Valid) (hc : (0 : Byte) ∈ c) :
    (∃ r, v.opAddString s = some r ∧ v.opAdd (StaticString.ofString s) = some r ∧
        r = v.bytes ++ s ∧ string.size r = v.size + string.size s) ∧
    (∃ r, stringAdd s v = some r ∧ (StaticString.ofString s).opAdd v = some r ∧
        r = s ++ v.bytes ∧ string.size r = string.size s + v.size) ∧
    (∃ cv r, StaticString.ofCStr c = some cv ∧
        cv.bytes = cstrBytes c ∧
        v.opAddCStr c = some r ∧ v.opAdd cv = some r ∧
        r = v.bytes ++ cv.bytes ∧ string.size r = v.size + cv.size) ∧
    (∃ cv r, StaticString.ofCStr c = some cv ∧
        cv.bytes = cstrBytes c ∧
        cstrAdd c v = some r ∧ cv.opAdd v = some r ∧
        r = cv.bytes ++ v.bytes ∧ string.size r = cv.size + v.size) ∧
    (StaticString.ofCStr [102, 111, 111, 0]).bind
        (fun foo => foo.opAddCStr [98, 97, 114, 0]) = some [102, 111, 111, 98, 97, 114] := by
  have hlv := StaticString.length_bytes v hv
  have hs := opAdd_eq v (StaticString.ofString s) hv (valid_ofString s)
  have hs' := opAdd_eq (StaticString.ofString s) v (valid_ofString s) hv
  rw [bytes_ofString] at hs hs'
  obtain ⟨cv, hcv, hcont, hlen, hcvv, hcvb⟩ := ofCStr_of_mem c hc
  have hlcv := StaticString.length_bytes cv hcvv
  have hvc := opAdd_eq v cv hv hcvv
  have hcv' := opAdd_eq cv v hcvv hv
  have hv' : v.len ≤ v.content.length := hv
  refine ⟨⟨v.bytes ++ s, ?_, hs, rfl, ?_⟩, ⟨s ++ v.bytes, ?_, hs', rfl, ?_⟩,
    ⟨cv, v.bytes ++ cv.bytes, hcv, hcvb, ?_, hvc, rfl, ?_⟩,
    ⟨cv, cv.bytes ++ v.bytes, hcv, hcvb, ?_, hcv', rfl, ?_⟩, by decide⟩
  · simp [StaticString.opAddString, string.ofData, string.add, StaticString.bytes, hv']
  · simp [string.size, StaticString.size, hlv]
  · simp [stringAdd, string.append, StaticString.data, StaticString.size,
      StaticString.bytes, hv']
  · simp [string.size, StaticString.size, hlv]
  · have hle : (cstrBytes c).length ≤ c.length :=
      length_cstrBytes_le c
    rw [hcvb]
    simp [StaticString.opAddCStr, string.ofData, string.addCStr, string.append,
      strlen_of_mem c hc, StaticString.bytes, hv', hle, take_length_cstrBytes]
  · simp [string.size, StaticString.size, hlv, hlcv]
  · simp [cstrAdd, hcv, hcv']
  · simp [string.size, StaticString.size, hlv, hlcv]

/-- Witness for C7: `StaticString("foo")` against the owned string and the buffer
`"bar"`. -/
theorem mixed_opAdd_eq_opAdd_witness :
    StaticString.Valid ⟨[102, 111, 111, 0], 3⟩ ∧ (0 : Byte) ∈ [(98 : Byte), 97, 114, 0] ∧
    StaticString.opAddCStr ⟨[102, 111, 111, 0], 3⟩ [98, 97, 114, 0] =
      some [102, 111, 111, 98, 97, 114] ∧
    cstrAdd [98, 97, 114, 0] ⟨[102, 111, 111, 0], 3⟩ = some [98, 97, 114, 102, 111, 111] ∧
    ∃ r, StaticString.opAddString ⟨[102, 111, 111, 0], 3⟩ [98, 97, 114] = some r ∧
      StaticString.opAdd ⟨[102, 111, 111, 0], 3⟩ (StaticString.ofString [98, 97, 114]) =
        some r ∧
      r = StaticString.bytes ⟨[102, 111, 111, 0], 3⟩ ++ [98, 97, 114] ∧
      string.size r = StaticString.size ⟨[102, 111, 111, 0], 3⟩ + string.size [98, 97, 114] :=
  ⟨by decide, by decide, by decide, by decide,
    (mixed_opAdd_eq_opAdd ⟨[102, 111, 111, 0], 3⟩ [98, 97, 114] [98, 97, 114, 0]
      (by decide) (by decide)).1⟩

/-- Claim C8: for every owned string `S`, zero bytes and the empty string included,
`StaticString(S).toString()` returns `S`, and so does the conversion `operator string()`. -/
theorem toString_ofString (S : string) :
    (StaticString.ofString S).toString = some S ∧
    (StaticString.ofString S).opString = some S := by
  constructor <;>
    simp [StaticString.toString, StaticString.opString, StaticString.ofString, string.ofData,
      string.data, string.size]

/-- Claim C9: for a valid view `v`, `v == s` against an owned string returns what
`v == StaticString(s)` returns (as does `v.equals(s)`), and `v == c` against a
null-terminated buffer returns what `v == StaticString(c)` returns, the length of `c`
being the number of bytes before its first zero byte. -/
theorem opEq_mixed_eq_opEq (v : StaticString) (s : string) (c : CharPtr)
    (hv : v.Valid) (hc : (0 : Byte) ∈ c) :
    (∃ r, v.opEqString s = some r ∧ v.equalsString s = some r ∧
        v.opEq (StaticString.ofString s) = some r) ∧
    (∃ cv r, StaticString.ofCStr c = some cv ∧
        strlen c = some (cstrBytes c).length ∧
        cv.size = (cstrBytes c).length ∧
        v.opEqCStr c = some r ∧ v.opEq cv = some r) := by
  have hs := StaticString.opEq_eq v (StaticString.ofString s) hv (valid_ofString s)
  obtain ⟨cv, hcv, hcont, hlen, hcvv, hcvb⟩ := ofCStr_of_mem c hc
  have hc' := StaticString.opEq_eq v cv hv hcvv
  refine ⟨⟨_, hs, hs, hs⟩, ⟨cv, _, hcv, strlen_of_mem c hc, hlen, ?_, hc'⟩⟩
  rw [← hc']
  unfold StaticString.opEqCStr StaticString.opEq
  rw [strlen_of_mem c hc, hlen, hcont]
  by_cases hl : v.len = (cstrBytes c).length
  · simp [hl]
  · simp [hl]

/-- Witness for C9: the view `"a\0b"` against the owned string `"a\0b"` (equal) and the
buffer `"a"` followed by a terminator (not equal). -/
theorem opEq_mixed_eq_opEq_witness :
    StaticString.Valid ⟨[97, 0, 98, 0], 3⟩ ∧ (0 : Byte) ∈ [(97 : Byte), 0, 98, 0] ∧
    StaticString.opEqString ⟨[97, 0, 98, 0], 3⟩ [97, 0, 98] = some true ∧
    StaticString.opEqCStr ⟨[97, 0, 98, 0], 3⟩ [97, 0, 98, 0] = some false ∧
    ∃ cv r, StaticString.ofCStr [97, 0, 98, 0] = some cv ∧
      strlen [97, 0, 98, 0] =
        some (cstrBytes [97, 0, 98, 0]).length ∧
      cv.size = (cstrBytes [97, 0, 98, 0]).length ∧
      StaticString.opEqCStr ⟨[97, 0, 98, 0], 3⟩ [97, 0, 98, 0] = some r ∧
      StaticString.opEq ⟨[97, 0, 98, 0], 3⟩ cv = some r :=
  ⟨by decide, by decide, by decide, by decide,
    (opEq_mixed_eq_opEq ⟨[97, 0, 98, 0], 3⟩ [97, 0, 98] [97, 0, 98, 0]
      (by decide) (by decide)).2⟩

/-- Claim C10: view equality is an equivalence relation: a valid view equals itself;
if `a == b` is true then `b == a` is true; if `a == b` and `b == c` are true then
`a == c` is true. -/
theorem opEq_equivalence (a b c : StaticString) (ha : a.Valid) :
    a.opEq a = some true ∧
    (a.opEq b = some true → b.opEq a = some true) ∧
    (a.opEq b = some true → b.opEq c = some true → a.opEq c = some true) := by
  refine ⟨?_, ?_, ?_⟩
  · rw [StaticString.opEq_eq a a ha ha]
    simp
  · intro h
    obtain ⟨_, hb, _, hab⟩ := StaticString.opEq_true_inv a b h
    rw [StaticString.opEq_eq b a hb ha]
    simp [hab]
  · intro h1 h2
    obtain ⟨_, _, _, hab⟩ := StaticString.opEq_true_inv a b h1
    obtain ⟨_, hc, _, hbc⟩ := StaticString.opEq_true_inv b c h2
    rw [StaticString.opEq_eq a c ha hc]
    simp [hab, hbc]

/-- Witness for C10: three views of the bytes `"a\0"` over three different buffers. -/
theorem opEq_equivalence_witness :
    StaticString.Valid ⟨[97, 0], 2⟩ ∧
    StaticString.opEq ⟨[97, 0], 2⟩ ⟨[97, 0, 98], 2⟩ = some true ∧
    StaticString.opEq ⟨[97, 0, 98], 2⟩ ⟨[97, 0, 0, 0], 2⟩ = some true ∧
    StaticString.opEq ⟨[97, 0], 2⟩ ⟨[97, 0], 2⟩ = some true ∧
    StaticString.opEq ⟨[97, 0, 98], 2⟩ ⟨[97, 0], 2⟩ = some true ∧
    StaticString.opEq ⟨[97, 0], 2⟩ ⟨[97, 0, 0, 0], 2⟩ = some true :=
  ⟨by decide, by decide, by decide,
    (opEq_equivalence ⟨[97, 0], 2⟩ ⟨[97, 0, 98], 2⟩ ⟨[97, 0, 0, 0], 2⟩ (by decide)).1,
    (opEq_equivalence ⟨[97, 0], 2⟩ ⟨[97, 0, 98], 2⟩ ⟨[97, 0, 0, 0], 2⟩ (by decide)).2.1
      (by decide),
    (opEq_equivalence ⟨[97, 0], 2⟩ ⟨[97, 0, 98], 2⟩ ⟨[97, 0, 0, 0], 2⟩ (by decide)).2.2
      (by decide) (by decide)⟩

/-! ## The ordering as a lexicographic order on the denoted bytes -/

theorem memcmpLoop_zero (s1 s2 : CharPtr) : memcmpLoop s1 s2 0 = 0 := by
  cases s1 <;> cases s2 <;> simp [memcmpLoop]

theorem memcmpLoop_lexLt (s1 s2 : CharPtr) (n1 n2 : Nat)
    (h1 : n1 ≤ s1.length) (h2 : n2 ≤ s2.length) :
    (if memcmpLoop s1 s2 (min n1 n2) = 0 then decide (n1 < n2)
     else decide (memcmpLoop s1 s2 (min n1 n2) < 0)) =
      lexLt (s1.take n1) (s2.take n2) := by
  induction n1 generalizing s1 s2 n2 with
  | zero =>
    cases n2 with
    | zero => simp [memcmpLoop_zero, lexLt]
    | succ m =>
      cases s2 with
      | nil => simp at h2
      | cons y s2 => simp [memcmpLoop_zero, lexLt]
  | succ k ih =>
    cases s1 with
    | nil => simp at h1
    | cons x s1 =>
      cases n2 with
      | zero => simp [memcmpLoop_zero, lexLt]
      | succ m =>
        cases s2 with
        | nil => simp at h2
        | cons y s2 =>
          simp only [List.length_cons, Nat.add_le_add_iff_right] at h1 h2
          have hmin : min (k + 1) (m + 1) = min k m + 1 := by omega
          rw [hmin]
          simp only [List.take_succ_cons, lexLt, memcmpLoop]
          by_cases hxy : x = y
          · subst hxy
            simp only [if_true, Nat.add_lt_add_iff_right]
            exact ih s1 s2 m h1 h2
          · have hv := Fin.val_ne_of_ne hxy
            have hne : ¬ ((x.val : Int) - (y.val : Int) = 0) := by omega
            simp only [if_neg hxy, if_neg hne]
            exact decide_eq_decide.mpr (by omega)

theorem opLt_eq_lexLt (a b : StaticString) (ha : a.Valid) (hb : b.Valid) :
    a.opLt b = some (lexLt a.bytes b.bytes) := by
  rw [StaticString.opLt_eq a b ha hb]
  exact congrArg some (memcmpLoop_lexLt a.content b.content a.len b.len ha hb)

theorem lexLt_irrefl (l : List Byte) : lexLt l l = false := by
  induction l with
  | nil => rfl
  | cons x l ih => simp [lexLt, ih]

theorem lexLt_nil_right (l : List Byte) : lexLt l [] = false := by
  cases l <;> rfl

theorem lexLt_nil_left (l : List Byte) : lexLt [] l = decide (l ≠ []) := by
  cases l <;> simp [lexLt]

theorem lexLt_append_left (s u v : List Byte) : lexLt (s ++ u) (s ++ v) = lexLt u v := by
  induction s with
  | nil => rfl
  | cons x s ih => simp [lexLt, ih]

theorem lexLt_trans : ∀ (a b c : List Byte),
    lexLt a b = true → lexLt b c = true → lexLt a c = true
  | [], [], _, h, _ => by simp [lexLt] at h
  | [], _ :: _, [], _, h => by simp [lexLt] at h
  | [], _ :: _, _ :: _, _, _ => by simp [lexLt]
  | _ :: _, [], _, h, _ => by simp [lexLt] at h
  | _ :: _, _ :: _, [], _, h => by simp [lexLt] at h
  | x :: a, y :: b, z :: c, h1, h2 => by
    simp only [lexLt] at h1 h2 ⊢
    by_cases hxy : x = y
    · subst hxy
      by_cases hxz : x = z
      · subst hxz
        simp only [if_true] at h1 h2 ⊢
        exact lexLt_trans a b c h1 h2
      · simp only [if_true, if_neg hxz] at h1 h2 ⊢
        exact h2
    · by_cases hyz : y = z
      · subst hyz
        simp only [if_neg hxy, if_true] at h1 h2 ⊢
        exact h1
      · simp only [if_neg hxy, if_neg hyz, decide_eq_true_eq] at h1 h2
        have hxz : ¬ x = z := by
          intro e
          subst e
          omega
        simp only [if_neg hxz, decide_eq_true_eq]
        omega

/-- Claim C11: on valid views `operator<` is a strict order: `a < a` returns false, and
if `a < b` and `b < c` return true then `a < c` returns true. -/
theorem opLt_strict_order (a b c : StaticString)
    (ha : a.Valid) (hb : b.Valid) (hc : c.Valid) :
    a.opLt a = some false ∧
    (a.opLt b = some true → b.opLt c = some true → a.opLt c = some true) := by
  rw [opLt_eq_lexLt a a ha ha, opLt_eq_lexLt a b ha hb, opLt_eq_lexLt b c hb hc,
    opLt_eq_lexLt a c ha hc, lexLt_irrefl]
  refine ⟨rfl, ?_⟩
  intro h1 h2
  rw [lexLt_trans a.bytes b.bytes c.bytes (Option.some.inj h1) (Option.some.inj h2)]

/-- Witness for C11: `"a\0" < "ab" < "b"`, the first decided by a zero byte. -/
theorem opLt_strict_order_witness :
    StaticString.Valid ⟨[97, 0, 0], 2⟩ ∧ StaticString.Valid ⟨[97, 98, 0], 2⟩ ∧
    StaticString.Valid ⟨[98, 0], 1⟩ ∧
    StaticString.opLt ⟨[97, 0, 0], 2⟩ ⟨[97, 98, 0], 2⟩ = some true ∧
    StaticString.opLt ⟨[97, 98, 0], 2⟩ ⟨[98, 0], 1⟩ = some true ∧
    StaticString.opLt ⟨[97, 0, 0], 2⟩ ⟨[97, 0, 0], 2⟩ = some false ∧
    StaticString.opLt ⟨[97, 0, 0], 2⟩ ⟨[98, 0], 1⟩ = some true :=
  ⟨by decide, by decide, by decide, by decide, by decide,
    (opLt_strict_order ⟨[97, 0, 0], 2⟩ ⟨[97, 98, 0], 2⟩ ⟨[98, 0], 1⟩
      (by decide) (by decide) (by decide)).1,
    (opLt_strict_order ⟨[97, 0, 0], 2⟩ ⟨[97, 98, 0], 2⟩ ⟨[98, 0], 1⟩
      (by decide) (by decide) (by decide)).2 (by decide) (by decide)⟩

/-- Claim C12: a proper beginning sorts first: if the valid view `p` holds the bytes of
`a` and the valid view `q` holds the bytes of `a` followed by those of a non-empty `b`,
then `p < q` is true and `q < p` is false (so `"ab" < "abc"`); and if the valid views `p`
and `q` hold the same bytes `s` followed by one last byte each, the last byte of `p` being
the smaller unsigned value, then `p < q` is true and `q < p` is false (so
`"abc" < "abd"`). -/
theorem opLt_proper_beginning_and_last_byte (a b p q : StaticString) (s : List Byte)
    (x y : Byte) (hb : b.Valid) (hp : p.Valid) (hq : q.Valid) :
    (b.size ≠ 0 → p.bytes = a.bytes → q.bytes = a.bytes ++ b.bytes →
      p.opLt q = some true ∧ q.opLt p = some false) ∧
    (p.bytes = s ++ [x] → q.bytes = s ++ [y] → x.val < y.val →
      p.size = q.size ∧ p.opLt q = some true ∧ q.opLt p = some false) ∧
    StaticString.opLt ⟨[97, 98, 0], 2⟩ ⟨[97, 98, 99, 0], 3⟩ = some true ∧
    StaticString.opLt ⟨[97, 98, 99, 0], 3⟩ ⟨[97, 98, 100, 0], 3⟩ = some true := by
  rw [opLt_eq_lexLt p q hp hq, opLt_eq_lexLt q p hq hp]
  refine ⟨?_, ?_, by decide, by decide⟩
  · intro hne h1 h2
    have hbne : b.bytes ≠ [] := by
      intro e
      have := StaticString.length_bytes b hb
      rw [e] at this
      exact hne this.symm
    rw [h1, h2]
    have e1 : lexLt a.bytes (a.bytes ++ b.bytes) = lexLt (a.bytes ++ []) (a.bytes ++ b.bytes) := by
      rw [List.append_nil]
    have e2 : lexLt (a.bytes ++ b.bytes) a.bytes = lexLt (a.bytes ++ b.bytes) (a.bytes ++ []) := by
      rw [List.append_nil]
    rw [e1, e2, lexLt_append_left, lexLt_append_left, lexLt_nil_left, lexLt_nil_right]
    simp [hbne]
  · intro h1 h2 hxy
    have hsz : p.size = q.size := by
      have l1 := StaticString.length_bytes p hp
      have l2 := StaticString.length_bytes q hq
      rw [h1] at l1
      rw [h2] at l2
      simp only [List.length_append, List.length_singleton] at l1 l2
      simp only [StaticString.size]
      omega
    rw [h1, h2, lexLt_append_left, lexLt_append_left]
    have hne : ¬ x = y := by
      intro e
      subst e
      omega
    have hne' : ¬ y = x := fun e => hne e.symm
    refine ⟨hsz, ?_, ?_⟩
    · simp [lexLt, hne, hxy]
    · simp only [lexLt, if_neg hne']
      simp
      omega

/-- Witness for C12: `"ab"` before `"abc"`, and `"ab\x7f"` before `"ab\x80"`. -/
theorem opLt_proper_beginning_and_last_byte_witness :
    StaticString.Valid ⟨[97, 98, 0], 2⟩ ∧ StaticString.Valid ⟨[99, 0], 1⟩ ∧
    StaticString.Valid ⟨[97, 98, 127], 2⟩ ∧ StaticString.Valid ⟨[97, 98, 99, 0], 3⟩ ∧
    StaticString.opLt ⟨[97, 98, 127], 2⟩ ⟨[97, 98, 99, 0], 3⟩ = some true ∧
    StaticString.opLt ⟨[97, 98, 99, 0], 3⟩ ⟨[97, 98, 127], 2⟩ = some false ∧
    StaticString.Valid ⟨[97, 98, 127], 3⟩ ∧ StaticString.Valid ⟨[97, 98, 128], 3⟩ ∧
    StaticString.size ⟨[97, 98, 127], 3⟩ = StaticString.size ⟨[97, 98, 128], 3⟩ ∧
    StaticString.opLt ⟨[97, 98, 127], 3⟩ ⟨[97, 98, 128], 3⟩ = some true ∧
    StaticString.opLt ⟨[97, 98, 128], 3⟩ ⟨[97, 98, 127], 3⟩ = some false :=
  ⟨by decide, by decide, by decide, by decide,
    ((opLt_proper_beginning_and_last_byte ⟨[97, 98, 0], 2⟩ ⟨[99, 0], 1⟩ ⟨[97, 98, 127], 2⟩
      ⟨[97, 98, 99, 0], 3⟩ [] 0 0 (by decide) (by decide) (by decide)).1
      (by decide) (by decide) (by decide)).1,
    ((opLt_proper_beginning_and_last_byte ⟨[97, 98, 0], 2⟩ ⟨[99, 0], 1⟩ ⟨[97, 98, 127], 2⟩
      ⟨[97, 98, 99, 0], 3⟩ [] 0 0 (by decide) (by decide) (by decide)).1
      (by decide) (by decide) (by decide)).2,
    by decide, by decide,
    ((opLt_proper_beginning_and_last_byte ⟨[97, 98, 0], 2⟩ ⟨[99, 0], 1⟩ ⟨[97, 98, 127], 3⟩
      ⟨[97, 98, 128], 3⟩ [97, 98] 127 128 (by decide) (by decide)
      (by decide)).2.1 (by decide) (by decide) (by decide)).1,
    ((opLt_proper_beginning_and_last_byte ⟨[97, 98, 0], 2⟩ ⟨[99, 0], 1⟩ ⟨[97, 98, 127], 3⟩
      ⟨[97, 98, 128], 3⟩ [97, 98] 127 128 (by decide) (by decide)
      (by decide)).2.1 (by decide) (by decide) (by decide)).2.1,
    ((opLt_proper_beginning_and_last_byte ⟨[97, 98, 0], 2⟩ ⟨[99, 0], 1⟩ ⟨[97, 98, 127], 3⟩
      ⟨[97, 98, 128], 3⟩ [97, 98] 127 128 (by decide) (by decide)
      (by decide)).2.1 (by decide) (by decide) (by decide)).2.2⟩

/-! ## The empty view, construction from a buffer, indexing, output -/

/-- Claim C13: the default-constructed view has `size() == 0` and `empty() == true`, it
compares equal to the buffer `""` and to the empty owned string, `StaticString("") == ""`
is true, and for every view `empty()` holds exactly when `size() == 0`. -/
theorem new_is_empty (v : StaticString) :
    StaticString.new.size = 0 ∧ StaticString.new.empty = true ∧
    StaticString.new.opEqCStr [0] = some true ∧
    StaticString.new.opEqString [] = some true ∧
    (StaticString.ofCStr [0]).bind (fun e => e.opEqCStr [0]) = some true ∧
    (v.empty = true ↔ v.size = 0) := by
  refine ⟨rfl, by decide, by decide, by decide, by decide, ?_⟩
  simp [StaticString.empty, StaticString.size]

theorem strlen_spec (buf : CharPtr) (n : Nat) (h : strlen buf = some n) :
    buf[n]? = some 0 ∧ ∀ i, i < n → ∃ x, buf[i]? = some x ∧ x ≠ 0 := by
  induction buf generalizing n with
  | nil => simp [strlen] at h
  | cons y buf ih =>
    by_cases hy : y = 0
    · simp only [strlen, hy, if_true, Option.some.injEq] at h
      subst h
      subst hy
      refine ⟨by simp, ?_⟩
      intro i hi
      omega
    · simp only [strlen, hy, if_false, Option.map_eq_some'] at h
      obtain ⟨m, hm, rfl⟩ := h
      obtain ⟨h0, hlt⟩ := ih m hm
      refine ⟨by simpa using h0, ?_⟩
      intro i hi
      cases i with
      | zero => exact ⟨y, by simp, hy⟩
      | succ i =>
        obtain ⟨x, hx, hx0⟩ := hlt i (by omega)
        exact ⟨x, by simpa using hx, hx0⟩

/-- Claim C14: for every null-terminated buffer `buf`, `StaticString(buf)` is a valid view
at `buf` whose `size()` is the number of bytes of `buf` before its first zero byte (the byte
at index `size()` is zero and every byte below it is not), and whose bytes are exactly
those bytes in order; `StaticString("foo").size()` is 3. -/
theorem ofCStr_size_and_bytes (buf : CharPtr) (hc : (0 : Byte) ∈ buf) :
    (∃ v, StaticString.ofCStr buf = some v ∧ v.Valid ∧ v.data = buf ∧
      buf[v.size]? = some 0 ∧
      (∀ i, i < v.size → ∃ x, v.opIndex i = some x ∧ buf[i]? = some x ∧ x ≠ 0) ∧
      v.size = (cstrBytes buf).length ∧ v.bytes = cstrBytes buf) ∧
    (StaticString.ofCStr [102, 111, 111, 0]).map StaticString.size = some 3 := by
  refine ⟨?_, by decide⟩
  obtain ⟨cv, hcv, hcont, hlen, hcvv, hcvb⟩ := ofCStr_of_mem buf hc
  have hstr : strlen buf = some cv.len := by
    rw [strlen_of_mem buf hc, hlen]
  obtain ⟨h0, hlt⟩ := strlen_spec buf cv.len hstr
  refine ⟨cv, hcv, hcvv, hcont, h0, ?_, hlen, hcvb⟩
  intro i hi
  obtain ⟨x, hx, hx0⟩ := hlt i hi
  refine ⟨x, ?_, hx, hx0⟩
  simp only [StaticString.opIndex, hcont]
  exact hx

/-- Witness for C14: the buffer `"fo\0o\0"`, whose view stops at the first zero byte. -/
theorem ofCStr_size_and_bytes_witness :
    (0 : Byte) ∈ [(102 : Byte), 111, 0, 111, 0] ∧
    StaticString.ofCStr [102, 111, 0, 111, 0] = some ⟨[102, 111, 0, 111, 0], 2⟩ ∧
    ((∃ v, StaticString.ofCStr [102, 111, 0, 111, 0] = some v ∧ v.Valid ∧
      v.data = [102, 111, 0, 111, 0] ∧
      [(102 : Byte), 111, 0, 111, 0][v.size]? = some 0 ∧
      (∀ i, i < v.size → ∃ x, v.opIndex i = some x ∧
        [(102 : Byte), 111, 0, 111, 0][i]? = some x ∧ x ≠ 0) ∧
      v.size = (cstrBytes [102, 111, 0, 111, 0]).length ∧
      v.bytes = cstrBytes [102, 111, 0, 111, 0]) ∧
    (StaticString.ofCStr [102, 111, 111, 0]).map StaticString.size = some 3) :=
  ⟨by decide, by decide, ofCStr_size_and_bytes [102, 111, 0, 111, 0] (by decide)⟩

/-- Claim C15: for every valid view `v`, `v.toString()` returns an owned string of length
exactly `v.size()` whose byte at every index `i < v.size()` is `v[i]` and `v.at(i)`;
`operator[]` and `at` return the same byte at every index. -/
theorem toString_size_and_bytes (v : StaticString) (hv : v.Valid) :
    ∃ r, v.toString = some r ∧ string.size r = v.size ∧
      (∀ i, i < v.size → ∃ x, r[i]? = some x ∧ v.opIndex i = some x ∧ v.at' i = some x) ∧
      (∀ i, v.opIndex i = v.at' i) := by
  have hv' : v.len ≤ v.content.length := hv
  refine ⟨v.bytes, ?_, ?_, ?_, fun _ => rfl⟩
  · simp [StaticString.toString, string.ofData, StaticString.bytes, hv']
  · simp [string.size, StaticString.size, StaticString.length_bytes v hv]
  · intro i hi
    simp only [StaticString.size] at hi
    have hlt : i < v.content.length := by omega
    refine ⟨v.content[i], ?_, ?_, ?_⟩
    · simp [StaticString.bytes, List.getElem?_take, hi, List.getElem?_eq_getElem hlt]
    · simp [StaticString.opIndex, List.getElem?_eq_getElem hlt]
    · simp [StaticString.at', List.getElem?_eq_getElem hlt]

/-- Witness for C15: the view `"a\0b"` inside a longer buffer. -/
theorem toString_size_and_bytes_witness :
    StaticString.Valid ⟨[97, 0, 98, 99, 0], 3⟩ ∧
    StaticString.toString ⟨[97, 0, 98, 99, 0], 3⟩ = some [97, 0, 98] ∧
    ∃ r, StaticString.toString ⟨[97, 0, 98, 99, 0], 3⟩ = some r ∧
      string.size r = StaticString.size ⟨[97, 0, 98, 99, 0], 3⟩ ∧
      (∀ i, i < StaticString.size ⟨[97, 0, 98, 99, 0], 3⟩ →
        ∃ x, r[i]? = some x ∧ StaticString.opIndex ⟨[97, 0, 98, 99, 0], 3⟩ i = some x ∧
          StaticString.at' ⟨[97, 0, 98, 99, 0], 3⟩ i = some x) ∧
      (∀ i, StaticString.opIndex ⟨[97, 0, 98, 99, 0], 3⟩ i =
        StaticString.at' ⟨[97, 0, 98, 99, 0], 3⟩ i) :=
  ⟨by decide, by decide, toString_size_and_bytes _ (by decide)⟩

theorem opNe_eq_map_opEq (a x : StaticString) :
    a.opNe x = (a.opEq x).map (fun r => !r) := by
  unfold StaticString.opNe StaticString.opEq
  by_cases hl : a.len = x.len
  · cases h : memcmp a.content x.content a.len <;> simp [hl, h]
  · simp [hl]

theorem opEqCStr_eq_opEq (v : StaticString) (c : CharPtr) (hc : (0 : Byte) ∈ c) :
    v.opEqCStr c = v.opEq ⟨c, (cstrBytes c).length⟩ := by
  unfold StaticString.opEqCStr StaticString.opEq
  rw [strlen_of_mem c hc]
  by_cases hl : v.len = (cstrBytes c).length
  · simp [hl]
  · simp [hl]

theorem opNeCStr_eq_opNe (v : StaticString) (c : CharPtr) (hc : (0 : Byte) ∈ c) :
    v.opNeCStr c = v.opNe ⟨c, (cstrBytes c).length⟩ := by
  unfold StaticString.opNeCStr StaticString.opNe
  rw [strlen_of_mem c hc]
  by_cases hl : v.len = (cstrBytes c).length
  · simp [hl]
  · simp [hl]

theorem valid_cstr (c : CharPtr) : StaticString.Valid ⟨c, (cstrBytes c).length⟩ :=
  length_cstrBytes_le c

theorem bytes_cstr (c : CharPtr) :
    StaticString.bytes ⟨c, (cstrBytes c).length⟩ = cstrBytes c :=
  take_length_cstrBytes c

/-- Claim C17: `operator!=` is the exact negation of `operator==` in each of its three
overloads: for a valid view `a` and a right operand that is a valid view, an owned string
or a null-terminated buffer, both operators return and `!=` returns the negation of what
`==` returns; views of different lengths are unequal, so
`StaticString("foo") != StaticString("fo")` is true. -/
theorem opNe_eq_not_opEq (a x : StaticString) (s : string) (c : CharPtr)
    (ha : a.Valid) (hx : x.Valid) (hc : (0 : Byte) ∈ c) :
    (∃ r, a.opEq x = some r ∧ a.opNe x = some (!r)) ∧
    (∃ r, a.opEqString s = some r ∧ a.opNeString s = some (!r)) ∧
    (∃ r, a.opEqCStr c = some r ∧ a.opNeCStr c = some (!r)) ∧
    (a.size ≠ x.size → a.opEq x = some false ∧ a.opNe x = some true) ∧
    (StaticString.ofCStr [102, 111, 111, 0]).bind
      (fun foo => (StaticString.ofCStr [102, 111, 0]).bind (fun fo => foo.opNe fo)) =
      some true := by
  have h1 := StaticString.opEq_eq a x ha hx
  have h2 := StaticString.opEq_eq a (StaticString.ofString s) ha (valid_ofString s)
  have h3 := StaticString.opEq_eq a ⟨c, (cstrBytes c).length⟩ ha (valid_cstr c)
  refine ⟨⟨_, h1, ?_⟩, ⟨_, h2, ?_⟩,
    ⟨decide (a.bytes = (StaticString.mk c (cstrBytes c).length).bytes), ?_, ?_⟩, ?_,
    by decide⟩
  · rw [opNe_eq_map_opEq, h1]
    rfl
  · have e : a.opNeString s = a.opNe (StaticString.ofString s) := rfl
    rw [e, opNe_eq_map_opEq, h2]
    rfl
  · rw [opEqCStr_eq_opEq a c hc]
    exact h3
  · rw [opNeCStr_eq_opNe a c hc, opNe_eq_map_opEq, h3]
    rfl
  · intro hne
    simp only [StaticString.size] at hne
    constructor
    · simp [StaticString.opEq, hne]
    · simp [StaticString.opNe, hne]

/-- Witness for C17: `"foo"` against the view `"fo"`, the owned string `"foo"` and the
buffer `"foo"`. -/
theorem opNe_eq_not_opEq_witness :
    StaticString.Valid ⟨[102, 111, 111, 0], 3⟩ ∧ StaticString.Valid ⟨[102, 111, 0], 2⟩ ∧
    (0 : Byte) ∈ [(102 : Byte), 111, 111, 0] ∧
    StaticString.size ⟨[102, 111, 111, 0], 3⟩ ≠ StaticString.size ⟨[102, 111, 0], 2⟩ ∧
    StaticString.opNeCStr ⟨[102, 111, 111, 0], 3⟩ [102, 111, 111, 0] = some false ∧
    StaticString.opNeString ⟨[102, 111, 111, 0], 3⟩ [102, 111, 111] = some false ∧
    (StaticString.opEq ⟨[102, 111, 111, 0], 3⟩ ⟨[102, 111, 0], 2⟩ = some false ∧
      StaticString.opNe ⟨[102, 111, 111, 0], 3⟩ ⟨[102, 111, 0], 2⟩ = some true) :=
  ⟨by decide, by decide, by decide, by decide, by decide, by decide,
    (opNe_eq_not_opEq ⟨[102, 111, 111, 0], 3⟩ ⟨[102, 111, 0], 2⟩ [102, 111, 111]
      [102, 111, 111, 0] (by decide) (by decide) (by decide)).2.2.2.1 (by decide)⟩

/-! ## The hash of a concatenation -/

theorem sizeT_add (abi : Abi) (r : Nat) (z : Int) :
    sizeT abi ((r : Int) * 33 + z) = (r * 33 + sizeT abi z) % 2 ^ abi.sizeBits := by
  unfold sizeT
  have hpos : (0 : Int) < (2 : Int) ^ abi.sizeBits := by positivity
  have hz : (((z % (2 : Int) ^ abi.sizeBits).toNat : Nat) : Int) = z % (2 : Int) ^ abi.sizeBits :=
    Int.toNat_of_nonneg (Int.emod_nonneg _ (ne_of_gt hpos))
  have hl : (((((r : Int) * 33 + z) % (2 : Int) ^ abi.sizeBits).toNat : Nat) : Int) =
      ((r : Int) * 33 + z) % (2 : Int) ^ abi.sizeBits :=
    Int.toNat_of_nonneg (Int.emod_nonneg _ (ne_of_gt hpos))
  apply Int.ofNat_inj.mp
  rw [hl]
  push_cast
  rw [hz, Int.add_emod_emod]

theorem foldl_hash_lt (abi : Abi) (l : List Byte) (acc : Nat) (h : acc < 2 ^ abi.sizeBits) :
    l.foldl (fun r c => sizeT abi ((r : Int) * 33 + charValue abi c)) acc
      < 2 ^ abi.sizeBits := by
  induction l generalizing acc with
  | nil => exact h
  | cons b l ih =>
    simp only [List.foldl_cons]
    apply ih
    rw [sizeT_add]
    exact Nat.mod_lt _ (by positivity)

theorem foldl_hash_zmod (abi : Abi) (l : List Byte) (acc : Nat) :
    ((l.foldl (fun r c => sizeT abi ((r : Int) * 33 + charValue abi c)) acc : Nat) :
        ZMod (2 ^ abi.sizeBits)) =
      (acc : ZMod (2 ^ abi.sizeBits)) * 33 ^ l.length +
        ((l.foldl (fun r c => sizeT abi ((r : Int) * 33 + charValue abi c)) 0 : Nat) :
          ZMod (2 ^ abi.sizeBits)) := by
  induction l generalizing acc with
  | nil => simp
  | cons b l ih =>
    simp only [List.foldl_cons, List.length_cons]
    rw [ih (sizeT abi ((acc : Int) * 33 + charValue abi b)),
      ih (sizeT abi (((0 : Nat) : Int) * 33 + charValue abi b)), sizeT_add, sizeT_add,
      ZMod.natCast_mod, ZMod.natCast_mod]
    push_cast
    ring

theorem Hash_eq_foldl (abi : Abi) (v : StaticString) (hv : v.Valid) :
    StaticString.Hash abi v =
      some (v.bytes.foldl (fun r c => sizeT abi ((r : Int) * 33 + charValue abi c)) 0) :=
  Hash.loop_eq abi v.content v.len 0 hv

/-- Claim C18: for valid views `a` and `b`, the hash of the view of the owned string
`a + b` is `Hash(a) * 33 ^ b.size() + Hash(b)` reduced modulo `2 ^ w`, for either
signedness of `char`; the hash of the empty view is 0. -/
theorem Hash_opAdd (abi : Abi) (a b : StaticString) (ha : a.Valid) (hb : b.Valid) :
    (∃ r x y z, a.opAdd b = some r ∧ StaticString.Hash abi a = some x ∧
      StaticString.Hash abi b = some y ∧
      StaticString.Hash abi (StaticString.ofString r) = some z ∧
      z = (x * 33 ^ b.size + y) % 2 ^ abi.sizeBits) ∧
    StaticString.Hash abi StaticString.new = some 0 := by
  refine ⟨⟨_, _, _, _, opAdd_eq a b ha hb, Hash_eq_foldl abi a ha, Hash_eq_foldl abi b hb,
    Hash_eq_foldl abi _ (valid_ofString _), ?_⟩, rfl⟩
  rw [bytes_ofString, List.foldl_append]
  have hlt := foldl_hash_lt abi b.bytes
    (a.bytes.foldl (fun r c => sizeT abi ((r : Int) * 33 + charValue abi c)) 0)
    (foldl_hash_lt abi a.bytes 0 (by positivity))
  have hz := foldl_hash_zmod abi b.bytes
    (a.bytes.foldl (fun r c => sizeT abi ((r : Int) * 33 + charValue abi c)) 0)
  rw [StaticString.length_bytes b hb] at hz
  have hmod : ∀ u v : Nat, ((u : ZMod (2 ^ abi.sizeBits)) = (v : ZMod (2 ^ abi.sizeBits))) →
      u % 2 ^ abi.sizeBits = v % 2 ^ abi.sizeBits :=
    fun u v h => (ZMod.natCast_eq_natCast_iff u v (2 ^ abi.sizeBits)).mp h
  have key := hmod _ (a.bytes.foldl
      (fun r c => sizeT abi ((r : Int) * 33 + charValue abi c)) 0 * 33 ^ b.len +
      b.bytes.foldl (fun r c => sizeT abi ((r : Int) * 33 + charValue abi c)) 0)
    (by rw [hz]; push_cast; rfl)
  rw [Nat.mod_eq_of_lt hlt] at key
  exact key

/-- Witness for C18: `"a\xc8"` and `"\0b"` on x86-64, where `char` is signed. -/
theorem Hash_opAdd_witness :
    StaticString.Valid ⟨[97, 200, 0], 2⟩ ∧ StaticString.Valid ⟨[0, 98, 0], 2⟩ ∧
    StaticString.Hash Abi.x86_64 ⟨[97, 200, 0], 2⟩ = some 3145 ∧
    StaticString.Hash Abi.x86_64 ⟨[0, 98, 0], 2⟩ = some 98 ∧
    StaticString.Hash Abi.x86_64 (StaticString.ofString [97, 200, 0, 98]) = some 3425003 ∧
    ((∃ r x y z, StaticString.opAdd ⟨[97, 200, 0], 2⟩ ⟨[0, 98, 0], 2⟩ = some r ∧
      StaticString.Hash Abi.x86_64 ⟨[97, 200, 0], 2⟩ = some x ∧
      StaticString.Hash Abi.x86_64 ⟨[0, 98, 0], 2⟩ = some y ∧
      StaticString.Hash Abi.x86_64 (StaticString.ofString r) = some z ∧
      z = (x * 33 ^ StaticString.size ⟨[0, 98, 0], 2⟩ + y) % 2 ^ Abi.x86_64.sizeBits) ∧
    StaticString.Hash Abi.x86_64 StaticString.new = some 0) :=
  ⟨by decide, by decide, by decide, by decide, by decide,
    Hash_opAdd Abi.x86_64 _ _ (by decide) (by decide)⟩

/-! ## Ordering under a common beginning; the least element -/

theorem bytes_new : StaticString.new.bytes = [] := rfl

theorem valid_new : StaticString.new.Valid := by decide

/-- Claim C19: for valid views `a`, `b`, `c`, comparing the views of the owned strings
`c + a` and `c + b` with `operator<` returns what `a < b` returns; and the empty view is
least: for every valid view `v`, `v < StaticString()` is false and `StaticString() < v`
is true exactly when `v` is not empty. -/
theorem opLt_common_beginning_and_least (a b c v : StaticString)
    (ha : a.Valid) (hb : b.Valid) (hc : c.Valid) (hv : v.Valid) :
    (∃ r1 r2 x, c.opAdd a = some r1 ∧ c.opAdd b = some r2 ∧
      (StaticString.ofString r1).opLt (StaticString.ofString r2) = some x ∧
      a.opLt b = some x) ∧
    v.opLt StaticString.new = some false ∧
    (∃ r, StaticString.new.opLt v = some r ∧ (r = true ↔ v.empty = false)) := by
  refine ⟨⟨_, _, _, opAdd_eq c a hc ha, opAdd_eq c b hc hb, ?_, opLt_eq_lexLt a b ha hb⟩,
    ?_, ⟨_, opLt_eq_lexLt _ v valid_new hv, ?_⟩⟩
  · rw [opLt_eq_lexLt _ _ (valid_ofString _) (valid_ofString _), bytes_ofString,
      bytes_ofString, lexLt_append_left]
  · rw [opLt_eq_lexLt v _ hv valid_new, bytes_new, lexLt_nil_right]
  · rw [bytes_new, lexLt_nil_left]
    have hl := StaticString.length_bytes v hv
    simp only [decide_eq_true_eq, StaticString.empty, decide_eq_false_iff_not]
    constructor
    · intro h h0
      rw [h0] at hl
      exact h (List.length_eq_zero.mp hl)
    · intro h e
      rw [e] at hl
      exact h hl.symm

/-- Witness for C19: `"x\0"` put in front of `"a\x7f"` and of `"a\x80"`. -/
theorem opLt_common_beginning_and_least_witness :
    StaticString.Valid ⟨[97, 127, 0], 2⟩ ∧ StaticString.Valid ⟨[97, 128, 0], 2⟩ ∧
    StaticString.Valid ⟨[120, 0, 0], 2⟩ ∧
    StaticString.opLt (StaticString.ofString [120, 0, 97, 127])
      (StaticString.ofString [120, 0, 97, 128]) = some true ∧
    StaticString.opLt ⟨[97, 127, 0], 2⟩ ⟨[97, 128, 0], 2⟩ = some true ∧
    ((∃ r1 r2 x, StaticString.opAdd ⟨[120, 0, 0], 2⟩ ⟨[97, 127, 0], 2⟩ = some r1 ∧
      StaticString.opAdd ⟨[120, 0, 0], 2⟩ ⟨[97, 128, 0], 2⟩ = some r2 ∧
      (StaticString.ofString r1).opLt (StaticString.ofString r2) = some x ∧
      StaticString.opLt ⟨[97, 127, 0], 2⟩ ⟨[97, 128, 0], 2⟩ = some x) ∧
    StaticString.opLt ⟨[120, 0, 0], 2⟩ StaticString.new = some false ∧
    (∃ r, StaticString.opLt StaticString.new ⟨[120, 0, 0], 2⟩ = some r ∧
      (r = true ↔ StaticString.empty ⟨[120, 0, 0], 2⟩ = false))) :=
  ⟨by decide, by decide, by decide, by decide, by decide,
    opLt_common_beginning_and_least ⟨[97, 127, 0], 2⟩ ⟨[97, 128, 0], 2⟩ ⟨[120, 0, 0], 2⟩
      ⟨[120, 0, 0], 2⟩ (by decide) (by decide) (by decide) (by decide)⟩

/-! ## Null-terminated buffers and embedded zero bytes -/

theorem zero_not_mem_cstrBytes (c : CharPtr) : (0 : Byte) ∉ cstrBytes c := by
  intro h
  have := List.mem_takeWhile_imp h
  simp at this

theorem cstrBytes_append_zero (s : List Byte) : cstrBytes (s ++ [0]) = cstrBytes s := by
  unfold cstrBytes
  induction s with
  | nil => simp [List.takeWhile_cons]
  | cons x s ih =>
    by_cases hx : x = 0
    · simp [List.takeWhile_cons, hx]
    · simpa [List.takeWhile_cons, hx] using ih

theorem cstrBytes_eq_self_iff (s : List Byte) : cstrBytes s = s ↔ (0 : Byte) ∉ s := by
  constructor
  · intro h hmem
    rw [← h] at hmem
    exact zero_not_mem_cstrBytes s hmem
  · intro h
    unfold cstrBytes
    apply List.takeWhile_eq_self_iff.mpr
    intro x hx
    have : x ≠ 0 := fun e => h (e ▸ hx)
    simp [this]

/-- Claim C20: a view built from a null-terminated buffer holds no zero byte; so for a
valid view `v` that holds a zero byte and any null-terminated buffer `c`, `v == c` is
false and `v != c` is true; and for every owned string `s`, `StaticString(s.c_str()) == s`
is true exactly when `s` holds no zero byte. -/
theorem cstr_overloads_stop_at_zero (v : StaticString) (c : CharPtr) (s : string)
    (hv : v.Valid) (hc : (0 : Byte) ∈ c) :
    (∃ cv, StaticString.ofCStr c = some cv ∧ (0 : Byte) ∉ cv.bytes) ∧
    ((0 : Byte) ∈ v.bytes → v.opEqCStr c = some false ∧ v.opNeCStr c = some true) ∧
    (∃ sv r, StaticString.ofCStr (string.c_str s) = some sv ∧ sv.opEqString s = some r ∧
      (r = true ↔ (0 : Byte) ∉ s)) := by
  refine ⟨?_, ?_, ?_⟩
  · obtain ⟨cv, hcv, _, _, _, hcvb⟩ := ofCStr_of_mem c hc
    exact ⟨cv, hcv, by rw [hcvb]; exact zero_not_mem_cstrBytes c⟩
  · intro h0
    have hne : ¬ v.bytes = cstrBytes c := by
      intro e
      rw [e] at h0
      exact zero_not_mem_cstrBytes c h0
    have heq : v.opEqCStr c = some false := by
      rw [opEqCStr_eq_opEq v c hc, StaticString.opEq_eq v _ hv (valid_cstr c), bytes_cstr]
      simp [hne]
    refine ⟨heq, ?_⟩
    rw [opNeCStr_eq_opNe v c hc, opNe_eq_map_opEq, ← opEqCStr_eq_opEq v c hc, heq]
    rfl
  · have hmem : (0 : Byte) ∈ string.c_str s := by simp [string.c_str]
    obtain ⟨sv, hsv, _, _, hsvv, hsvb⟩ := ofCStr_of_mem (string.c_str s) hmem
    have e : sv.opEqString s = sv.opEq (StaticString.ofString s) := rfl
    refine ⟨sv, decide (sv.bytes = (StaticString.ofString s).bytes), hsv, ?_, ?_⟩
    · rw [e]
      exact StaticString.opEq_eq sv _ hsvv (valid_ofString s)
    · rw [hsvb, bytes_ofString, decide_eq_true_eq]
      unfold string.c_str
      rw [cstrBytes_append_zero]
      exact cstrBytes_eq_self_iff s

/-- Witness for C20: the view `"a\0b"` against the buffer `"a\0b"`, whose C string is
`"a"`. -/
theorem cstr_overloads_stop_at_zero_witness :
    StaticString.Valid ⟨[97, 0, 98, 0], 3⟩ ∧ (0 : Byte) ∈ [(97 : Byte), 0, 98, 0] ∧
    (0 : Byte) ∈ StaticString.bytes ⟨[97, 0, 98, 0], 3⟩ ∧
    (StaticString.ofCStr (string.c_str [97, 0, 98])).bind
      (fun sv => sv.opEqString [97, 0, 98]) = some false ∧
    (StaticString.ofCStr (string.c_str [97, 98])).bind
      (fun sv => sv.opEqString [97, 98]) = some true ∧
    (StaticString.opEqCStr ⟨[97, 0, 98, 0], 3⟩ [97, 0, 98, 0] = some false ∧
      StaticString.opNeCStr ⟨[97, 0, 98, 0], 3⟩ [97, 0, 98, 0] = some true) :=
  ⟨by decide, by decide, by decide, by decide, by decide,
    (cstr_overloads_stop_at_zero ⟨[97, 0, 98, 0], 3⟩ [97, 0, 98, 0] [97, 0, 98]
      (by decide) (by decide)).2.1 (by decide)⟩

end Passenger
